import Mathlib

/-
Verification of the statistics reconciliation engine of the `eyeonwater`
integration (custom_components/eyeonwater).  The Python sources are shallowly
embedded: timestamps are modelled as integers (seconds), float quantities as
rationals, the recorder's statistics table as a list of rows with idempotent
upsert-by-start-timestamp semantics.  Each embedded definition mirrors one
Python function of `statistic_helper.py` or `sensor.py`; the external
`pyonwater` normalizer, which is not part of this repository, is modelled
from the specification's description of it.
-/

namespace EyeOnWater

/-- Model of Python's built-in `str.isalnum`, per character, as called by
`normalize_id`.  Python's classification is Unicode-wide; this model is exact
on ASCII and on the non-ASCII characters this development reasons about:
U+0130 (LATIN CAPITAL LETTER I WITH DOT ABOVE, a letter, alphanumeric) and
U+0307 (COMBINING DOT ABOVE, a combining mark, not alphanumeric, already
covered by the ASCII fallback).  Other non-ASCII characters fall back to the
ASCII classification and are outside the fidelity domain of this model. -/
def pyIsAlnum (c : Char) : Bool :=
  if c.toNat = 304 then true else c.isAlphanum

/-- Model of Python's built-in `str.lower`, per character, as called by
`normalize_id`.  Python applies the Unicode full lowercase mapping, which is
one-to-many for some characters: U+0130 lowercases to the two-character
sequence "i" (U+0069) followed by U+0307 COMBINING DOT ABOVE.  This model is
exact on ASCII and on U+0130/U+0307; other non-ASCII characters are mapped
to themselves and are outside the fidelity domain of this model. -/
def pyLower (c : Char) : List Char :=
  if c.toNat = 304 then [Char.ofNat 105, Char.ofNat 775]
  else if 65 ≤ c.toNat ∧ c.toNat ≤ 90 then [Char.ofNat (c.toNat + 32)]
  else [c]

/-- Embedding of `normalize_id` from `statistic_helper.py`: keep alphanumeric
characters and underscores, replace everything else with an underscore, join,
then lowercase the result (Python's `str.isalnum` / `str.lower` are modelled
by `pyIsAlnum` / `pyLower`; lowering the joined string is the concatenation
of the per-character lowercase mappings). -/
def normalize_id (uuid : String) : String :=
  let chars := uuid.data.map (fun c => if pyIsAlnum c || c == '_' then c else '_')
  String.mk ((chars.map pyLower).flatten)

/-- The per-character action of `normalize_id` on ASCII characters, where
the lowercase mapping is one-to-one. -/
def asciiNormalizeChar (c : Char) : Char :=
  Char.toLower (if c.isAlphanum || c == '_' then c else '_')

theorem isAlphanum_iff (c : Char) : c.isAlphanum = true ↔
    (48 ≤ c.toNat ∧ c.toNat ≤ 57) ∨ (65 ≤ c.toNat ∧ c.toNat ≤ 90) ∨
    (97 ≤ c.toNat ∧ c.toNat ≤ 122) := by
  simp only [Char.isAlphanum, Char.isAlpha, Char.isUpper, Char.isLower, Char.isDigit,
    Bool.or_eq_true, Bool.and_eq_true, decide_eq_true_eq]
  simp only [UInt32.le_def, BitVec.le_def, Char.toNat, UInt32.toNat]
  norm_num
  omega

theorem toLower_of_upper {c : Char} (h1 : 65 ≤ c.toNat) (h2 : c.toNat ≤ 90) :
    Char.toLower c = Char.ofNat (c.toNat + 32) := by
  rw [Char.toLower, if_pos ⟨h1, h2⟩]

theorem toLower_of_not_upper {c : Char} (h : ¬(65 ≤ c.toNat ∧ c.toNat ≤ 90)) :
    Char.toLower c = c := by
  rw [Char.toLower, if_neg h]

theorem toNat_ofNat_of_lt {n : ℕ} (h : n < 55296) : (Char.ofNat n).toNat = n := by
  rw [Char.ofNat, dif_pos (Or.inl h)]
  simp [Char.ofNatAux, Char.toNat, UInt32.toNat, UInt32.ofNat', BitVec.toNat_ofNat,
    Nat.mod_eq_of_lt (by omega : n < 4294967296)]

theorem asciiNormalizeChar_spec (c : Char) :
    ((asciiNormalizeChar c).isAlphanum = true ∨ asciiNormalizeChar c = '_') ∧
      asciiNormalizeChar (asciiNormalizeChar c) = asciiNormalizeChar c := by
  by_cases hc : (c.isAlphanum || c == '_') = true
  · rcases Bool.or_eq_true _ _ |>.mp hc with halnum | heq
    · rcases (isAlphanum_iff c).mp halnum with hd | hu | hl
      · have hlow : Char.toLower c = c := toLower_of_not_upper (by omega)
        have hg : asciiNormalizeChar c = c := by
          rw [asciiNormalizeChar, if_pos hc, hlow]
        rw [hg]
        exact ⟨Or.inl halnum, hg⟩
      · have hlow : Char.toLower c = Char.ofNat (c.toNat + 32) :=
          toLower_of_upper hu.1 hu.2
        have htn : (Char.ofNat (c.toNat + 32)).toNat = c.toNat + 32 :=
          toNat_ofNat_of_lt (by omega)
        have hg : asciiNormalizeChar c = Char.ofNat (c.toNat + 32) := by
          rw [asciiNormalizeChar, if_pos hc, hlow]
        have halnum2 : (asciiNormalizeChar c).isAlphanum = true := by
          rw [hg, isAlphanum_iff, htn]; omega
        refine ⟨Or.inl halnum2, ?_⟩
        have hlow2 : Char.toLower (asciiNormalizeChar c) = asciiNormalizeChar c := by
          refine toLower_of_not_upper ?_
          rw [hg, htn]; omega
        rw [asciiNormalizeChar,
          if_pos (Bool.or_eq_true _ _ |>.mpr (Or.inl halnum2)), hlow2]
      · have hlow : Char.toLower c = c := toLower_of_not_upper (by omega)
        have hg : asciiNormalizeChar c = c := by
          rw [asciiNormalizeChar, if_pos hc, hlow]
        rw [hg]
        exact ⟨Or.inl halnum, hg⟩
    · have hc' : c = '_' := by exact beq_iff_eq.mp heq
      subst hc'
      exact ⟨Or.inr (by decide), by decide⟩
  · have hg : asciiNormalizeChar c = '_' := by
      rw [asciiNormalizeChar, if_neg hc]; decide
    rw [hg]
    exact ⟨Or.inr rfl, by decide⟩

theorem pyIsAlnum_of_isAlphanum {c : Char} (h : c.isAlphanum = true) :
    pyIsAlnum c = true := by
  rw [pyIsAlnum]
  by_cases h304 : c.toNat = 304
  · rw [if_pos h304]
  · rw [if_neg h304]
    exact h

theorem pyLower_eq_toLower {c : Char} (h : ¬(c.toNat = 304)) :
    pyLower c = [Char.toLower c] := by
  rw [pyLower, if_neg h]
  by_cases hu : 65 ≤ c.toNat ∧ c.toNat ≤ 90
  · rw [if_pos hu, toLower_of_upper hu.1 hu.2]
  · rw [if_neg hu, toLower_of_not_upper hu]

theorem pyLower_keep_ascii {c : Char} (h : c.toNat < 128) :
    pyLower (if pyIsAlnum c || c == '_' then c else '_') =
      [asciiNormalizeChar c] := by
  have h304 : ¬(c.toNat = 304) := by omega
  have hcond : pyIsAlnum c = c.isAlphanum := by rw [pyIsAlnum, if_neg h304]
  rw [hcond, asciiNormalizeChar]
  by_cases hk : (c.isAlphanum || c == '_') = true
  · rw [if_pos hk]
    exact pyLower_eq_toLower h304
  · rw [if_neg hk]
    decide

theorem asciiNormalizeChar_ascii {c : Char} (h : c.toNat < 128) :
    (asciiNormalizeChar c).toNat < 128 := by
  rw [asciiNormalizeChar]
  by_cases hk : (c.isAlphanum || c == '_') = true
  · rw [if_pos hk]
    by_cases hu : 65 ≤ c.toNat ∧ c.toNat ≤ 90
    · rw [toLower_of_upper hu.1 hu.2, toNat_ofNat_of_lt (by omega)]
      omega
    · rw [toLower_of_not_upper hu]
      exact h
  · rw [if_neg hk]
    decide

theorem flatten_pyLower_ascii (l : List Char) (h : ∀ c ∈ l, c.toNat < 128) :
    ((l.map fun c => if pyIsAlnum c || c == '_' then c else '_').map
      pyLower).flatten = l.map asciiNormalizeChar := by
  induction l with
  | nil => rfl
  | cons c cs ih =>
    simp only [List.map_cons, List.flatten_cons]
    rw [ih fun d hd => h d (List.mem_cons_of_mem c hd)]
    rw [pyLower_keep_ascii (h c (List.mem_cons_self c cs))]
    rfl

theorem normalize_id_ascii_eq (s : String)
    (h : ∀ c ∈ s.data, c.toNat < 128) :
    normalize_id s = String.mk (s.data.map asciiNormalizeChar) := by
  rw [normalize_id]
  show String.mk ((List.map _ s.data).map pyLower).flatten = _
  rw [flatten_pyLower_ascii s.data h]

/-- C10 (amended): restricted to ASCII input strings, `normalize_id` is
idempotent and its output contains only alphanumeric characters and
underscores.  (On full Unicode input both parts fail: Python classifies
U+0130 as alphanumeric and lowercases it to "i" plus the combining dot
U+0307, which is neither alphanumeric nor an underscore, and a second
application replaces that combining dot with an underscore — see the
counterexample.) -/
theorem normalize_id_spec (s : String)
    (hascii : ∀ c ∈ s.data, c.toNat < 128) :
    normalize_id (normalize_id s) = normalize_id s ∧
      ∀ c ∈ (normalize_id s).data, pyIsAlnum c = true ∨ c = '_' := by
  have h1 : normalize_id s = String.mk (s.data.map asciiNormalizeChar) :=
    normalize_id_ascii_eq s hascii
  have h2 : ∀ c ∈ (String.mk (s.data.map asciiNormalizeChar)).data,
      c.toNat < 128 := by
    intro c hc
    obtain ⟨a, ha, rfl⟩ := List.mem_map.mp hc
    exact asciiNormalizeChar_ascii (hascii a ha)
  constructor
  · rw [h1, normalize_id_ascii_eq _ h2]
    show String.mk (List.map asciiNormalizeChar
      (List.map asciiNormalizeChar s.data)) = _
    rw [List.map_map]
    congr 1
    apply List.map_congr_left
    intro c _
    exact (asciiNormalizeChar_spec c).2
  · rw [h1]
    intro c hc
    have hc' : c ∈ List.map asciiNormalizeChar s.data := hc
    rcases List.mem_map.mp hc' with ⟨a, _, ha⟩
    rw [← ha]
    rcases (asciiNormalizeChar_spec a).1 with halnum | heq
    · exact Or.inl (pyIsAlnum_of_isAlphanum halnum)
    · exact Or.inr heq

theorem normalize_id_spec_witness :
    (∀ c ∈ (String.mk ['A', 'B', '-', '1']).data, c.toNat < 128) ∧
      normalize_id (normalize_id (String.mk ['A', 'B', '-', '1'])) =
        normalize_id (String.mk ['A', 'B', '-', '1']) ∧
      ∀ c ∈ (normalize_id (String.mk ['A', 'B', '-', '1'])).data,
        pyIsAlnum c = true ∨ c = '_' := by
  have hascii : ∀ c ∈ (String.mk ['A', 'B', '-', '1']).data, c.toNat < 128 := by
    decide
  have h := normalize_id_spec (String.mk ['A', 'B', '-', '1']) hascii
  exact ⟨hascii, h.1, h.2⟩

/-- C10 counterexample: on the one-character input U+0130 (LATIN CAPITAL
LETTER I WITH DOT ABOVE), which Python keeps as alphanumeric and lowercases
to "i" followed by U+0307 COMBINING DOT ABOVE, `normalize_id` emits the
combining dot — neither alphanumeric nor an underscore — and a second
application replaces it with an underscore, so as stated the function is
neither alphanumeric/underscore-closed nor idempotent. -/
theorem normalize_id_counterexample :
    normalize_id (String.mk [Char.ofNat 304]) =
        String.mk [Char.ofNat 105, Char.ofNat 775] ∧
      Char.ofNat 775 ∈ (normalize_id (String.mk [Char.ofNat 304])).data ∧
      pyIsAlnum (Char.ofNat 775) = false ∧
      ¬(Char.ofNat 775 = '_') ∧
      normalize_id (normalize_id (String.mk [Char.ofNat 304])) =
        String.mk [Char.ofNat 105, '_'] ∧
      normalize_id (normalize_id (String.mk [Char.ofNat 304])) ≠
        normalize_id (String.mk [Char.ofNat 304]) := by
  refine ⟨?_, ?_, ?_, ?_, ?_, ?_⟩ <;> decide

/-- A raw meter reading (`pyonwater.DataPoint`): a timestamp `dt` (seconds)
and an absolute meter `reading`. -/
structure DataPoint where
  dt : ℤ
  reading : ℚ
deriving DecidableEq

/-- A row of the recorder's long-term statistics table, as written by
`async_import_statistics`: hour start timestamp, absolute `state`, and
cumulative `sum`. -/
@[ext]
structure StatRow where
  start : ℤ
  state : ℚ
  sum : ℚ
deriving DecidableEq

/-- Clamping pass of the normalizer: a reading below the running previous
value is raised to that previous value; all other readings pass through. -/
def emtClamp (prev : ℚ) : List DataPoint → List DataPoint
  | [] => []
  | q :: rest =>
    let v := if q.reading < prev then prev else q.reading
    ⟨q.dt, v⟩ :: emtClamp v rest

/-- Modelled from the spec: `pyonwater.enforce_monotonic_total`, imported by
`statistic_helper.py` from the external `pyonwater` package (its code is not
part of this repository).  Per spec sections 4.1 and 9 the output values are
non-decreasing, "implemented by clamping any backward jump to the previous
value", preserving input length and ordering; with `clamp_min=None` the first
reading is never clamped. -/
def enforceMonotonicTotal : List DataPoint → List DataPoint
  | [] => []
  | p :: rest => p :: emtClamp p.reading rest

/-- The accumulation loop of `convert_statistic_data`: each reading
contributes `delta = reading - previous` to the running cumulative sum and
emits a row `{start: dt, state: reading, sum: cumulative}`. -/
def convertLoop (prev cum : ℚ) : List DataPoint → List StatRow
  | [] => []
  | p :: rest =>
    let cum2 := cum + (p.reading - prev)
    ⟨p.dt, p.reading, cum2⟩ :: convertLoop p.reading cum2 rest

/-- Embedding of `convert_statistic_data` from `statistic_helper.py`:
normalize the readings, seed the cumulative sum with `last_sum or 0.0` and the
previous reading with `last_reading` (defaulting to the first normalized
reading), then run the delta accumulation loop. -/
def convertStatisticData (data : List DataPoint) (lastSum lastReading : Option ℚ) :
    List StatRow :=
  let normalized := enforceMonotonicTotal data
  let cum0 := lastSum.getD 0
  let prev0 :=
    match lastReading with
    | some r => r
    | none =>
      match normalized with
      | [] => 0
      | h :: _ => h.reading
  convertLoop prev0 cum0 normalized

/-- The accumulation loop of `convert_cost_statistic_data`: each interval
contributes `consumption_delta * price_per_unit` to the running cumulative
cost; cost rows carry `state == sum`. -/
def convertCostLoop (price prev cum : ℚ) : List DataPoint → List StatRow
  | [] => []
  | p :: rest =>
    let cum2 := cum + (p.reading - prev) * price
    ⟨p.dt, cum2, cum2⟩ :: convertCostLoop price p.reading cum2 rest

/-- Embedding of `convert_cost_statistic_data` from `statistic_helper.py`
(empty input short-circuits to an empty row list). -/
def convertCostStatisticData (data : List DataPoint) (price : ℚ)
    (lastCostSum lastReading : Option ℚ) : List StatRow :=
  match data with
  | [] => []
  | _ :: _ =>
    let normalized := enforceMonotonicTotal data
    let cum0 := lastCostSum.getD 0
    let prev0 :=
      match lastReading with
      | some r => r
      | none =>
        match normalized with
        | [] => 0
        | h :: _ => h.reading
    convertCostLoop price prev0 cum0 normalized

theorem emtClamp_length (prev : ℚ) (l : List DataPoint) :
    (emtClamp prev l).length = l.length := by
  induction l generalizing prev with
  | nil => rfl
  | cons q rest ih => simp [emtClamp, ih]

theorem enforceMonotonicTotal_length (l : List DataPoint) :
    (enforceMonotonicTotal l).length = l.length := by
  cases l with
  | nil => rfl
  | cons p rest => simp [enforceMonotonicTotal, emtClamp_length]

theorem emtClamp_eq_self (l : List DataPoint) :
    ∀ prev : ℚ, (∀ q, l.head? = some q → prev ≤ q.reading) →
      List.Chain' (fun a b => a.reading ≤ b.reading) l → emtClamp prev l = l := by
  induction l with
  | nil => intro prev _ _; rfl
  | cons q rest ih =>
    intro prev hhead hchain
    have hq : prev ≤ q.reading := hhead q rfl
    have hv : (if q.reading < prev then prev else q.reading) = q.reading := by
      rw [if_neg (not_lt.mpr hq)]
    rw [emtClamp]
    simp only [hv]
    have hrest : emtClamp q.reading rest = rest := by
      refine ih q.reading ?_ hchain.tail
      intro r hr
      exact List.chain'_cons'.mp hchain |>.1 r hr
    rw [hrest]

theorem enforceMonotonicTotal_eq_self (l : List DataPoint)
    (h : List.Chain' (fun a b => a.reading ≤ b.reading) l) :
    enforceMonotonicTotal l = l := by
  cases l with
  | nil => rfl
  | cons p rest =>
    rw [enforceMonotonicTotal]
    have : emtClamp p.reading rest = rest := by
      refine emtClamp_eq_self rest p.reading ?_ h.tail
      intro r hr
      exact List.chain'_cons'.mp h |>.1 r hr
    rw [this]

theorem convertLoop_getElem (l : List DataPoint) :
    ∀ (prev cum : ℚ) (i : ℕ),
      (convertLoop prev cum l)[i]? =
        (l[i]?).map fun p => ⟨p.dt, p.reading, cum + (p.reading - prev)⟩ := by
  induction l with
  | nil => intro prev cum i; simp [convertLoop]
  | cons p rest ih =>
    intro prev cum i
    cases i with
    | zero => simp [convertLoop]
    | succ j =>
      rw [convertLoop]
      simp only [List.getElem?_cons_succ]
      rw [ih]
      cases h : rest[j]? with
      | none => rfl
      | some q =>
        simp only [Option.map_some', Option.some.injEq, StatRow.mk.injEq,
          true_and]
        ring

theorem convertLoop_length (l : List DataPoint) :
    ∀ prev cum : ℚ, (convertLoop prev cum l).length = l.length := by
  induction l with
  | nil => intro prev cum; rfl
  | cons p rest ih => intro prev cum; simp [convertLoop, ih]

theorem convertStatisticData_eq (data : List DataPoint)
    (lastSum lastReading : Option ℚ) :
    convertStatisticData data lastSum lastReading =
      convertLoop
        (match lastReading with
         | some r => r
         | none =>
           match enforceMonotonicTotal data with
           | [] => 0
           | h :: _ => h.reading)
        (lastSum.getD 0) (enforceMonotonicTotal data) := rfl

/-- C3: converting a non-empty ordered reading sequence with a baseline
`{last_sum: S, last_reading: R}` (both present) gives a first output row
whose sum equals `S + (readings[0].value - R)`. -/
theorem convert_continuation_first_sum (data : List DataPoint) (S R : ℚ)
    (p : DataPoint) (hhead : data.head? = some p) :
    ((convertStatisticData data (some S) (some R))[0]?).map (·.sum) =
      some (S + (p.reading - R)) := by
  cases data with
  | nil => exact absurd hhead (by simp)
  | cons q rest =>
    have hq : q = p := by simpa using hhead
    subst hq
    rw [convertStatisticData_eq, convertLoop_getElem, enforceMonotonicTotal]
    simp

theorem convert_continuation_first_sum_witness :
    ([⟨0, 1000⟩, ⟨1, 1005⟩] : List DataPoint).head? = some ⟨0, 1000⟩ ∧
      ((convertStatisticData [⟨0, 1000⟩, ⟨1, 1005⟩] (some 40) (some 50))[0]?).map
          (·.sum) = some (40 + ((1000 : ℚ) - 50)) :=
  ⟨rfl, convert_continuation_first_sum [⟨0, 1000⟩, ⟨1, 1005⟩] 40 50 ⟨0, 1000⟩ rfl⟩

/-- C2 (amended): for every non-empty reading sequence whose reading values
are non-decreasing, conversion with no baseline yields a first row with
`sum = 0` and, for every interior index, the recurrence
`sum[i+1] = sum[i] + (reading[i+1] - reading[i])`.  (The claim as frozen
omits the non-decreasing hypothesis; the pyonwater normalizer clamps
backward jumps, so the raw recurrence fails on decreasing inputs — see the
counterexample.) -/
theorem convert_no_baseline_delta (data : List DataPoint)
    (hne : data ≠ [])
    (hmono : List.Chain' (fun a b => a.reading ≤ b.reading) data) :
    (convertStatisticData data none none).length = data.length ∧
      ((convertStatisticData data none none)[0]?).map (·.sum) = some 0 ∧
      ∀ (i : ℕ) (r1 r2 : StatRow) (p1 p2 : DataPoint),
        (convertStatisticData data none none)[i]? = some r1 →
        (convertStatisticData data none none)[i + 1]? = some r2 →
        data[i]? = some p1 → data[i + 1]? = some p2 →
        r2.sum = r1.sum + (p2.reading - p1.reading) := by
  have hid : enforceMonotonicTotal data = data :=
    enforceMonotonicTotal_eq_self data hmono
  cases data with
  | nil => exact absurd rfl hne
  | cons p rest =>
    have hrows : convertStatisticData (p :: rest) none none =
        convertLoop p.reading 0 (p :: rest) := by
      rw [convertStatisticData_eq, hid]
      rfl
    refine ⟨?_, ?_, ?_⟩
    · rw [hrows, convertLoop_length]
    · rw [hrows, convertLoop_getElem]
      simp
    · intro i r1 r2 p1 p2 h1 h2 hp1 hp2
      rw [hrows, convertLoop_getElem, hp1] at h1
      rw [hrows, convertLoop_getElem, hp2] at h2
      simp only [Option.map_some', Option.some.injEq] at h1 h2
      rw [← h1, ← h2]
      show 0 + (p2.reading - p.reading) = 0 + (p1.reading - p.reading) + _
      ring

theorem convert_no_baseline_delta_witness :
    (([⟨0, 1000⟩, ⟨1, 1005⟩, ⟨2, 1012⟩] : List DataPoint) ≠ [] ∧
        List.Chain' (fun a b : DataPoint => a.reading ≤ b.reading)
          [⟨0, 1000⟩, ⟨1, 1005⟩, ⟨2, 1012⟩]) ∧
      ((convertStatisticData [⟨0, 1000⟩, ⟨1, 1005⟩, ⟨2, 1012⟩] none none)[0]?).map
          (·.sum) = some 0 ∧
      convertStatisticData [⟨0, 1000⟩, ⟨1, 1005⟩, ⟨2, 1012⟩] none none =
        [⟨0, 1000, 0⟩, ⟨1, 1005, 5⟩, ⟨2, 1012, 12⟩] := by
  have hchain : List.Chain' (fun a b : DataPoint => a.reading ≤ b.reading)
      [⟨0, 1000⟩, ⟨1, 1005⟩, ⟨2, 1012⟩] := by
    simp only [List.chain'_cons, List.chain'_singleton, and_true]
    norm_num
  refine ⟨⟨by simp, hchain⟩, ?_, ?_⟩
  · exact (convert_no_baseline_delta [⟨0, 1000⟩, ⟨1, 1005⟩, ⟨2, 1012⟩]
      (by simp) hchain).2.1
  · norm_num [convertStatisticData_eq, enforceMonotonicTotal, emtClamp,
      convertLoop]

/-- C2 counterexample: on the ordered input `[(t=0, 1000), (t=1, 990)]`
with no baseline the converted sums are `[0, 0]`, but the claim's
recurrence demands `sum[1] = sum[0] + (990 - 1000) = -10`. -/
theorem convert_no_baseline_counterexample :
    ((convertStatisticData [⟨0, 1000⟩, ⟨1, 990⟩] none none)[0]?).map (·.sum) =
        some 0 ∧
      ((convertStatisticData [⟨0, 1000⟩, ⟨1, 990⟩] none none)[1]?).map (·.sum) =
        some 0 ∧
      (0 : ℚ) ≠ 0 + ((990 : ℚ) - 1000) := by
  refine ⟨?_, ?_, by norm_num⟩ <;>
    norm_num [convertStatisticData_eq, enforceMonotonicTotal, emtClamp,
      convertLoop]

/-- C7: for every input whose normalized readings are non-decreasing, the
converted rows have non-decreasing sums, regardless of the baseline. -/
theorem convert_sums_monotonic (data : List DataPoint)
    (lastSum lastReading : Option ℚ)
    (hmono : List.Chain' (fun a b => a.reading ≤ b.reading)
      (enforceMonotonicTotal data)) :
    ∀ (i : ℕ) (r1 r2 : StatRow),
      (convertStatisticData data lastSum lastReading)[i]? = some r1 →
      (convertStatisticData data lastSum lastReading)[i + 1]? = some r2 →
      r1.sum ≤ r2.sum := by
  intro i r1 r2 h1 h2
  rw [convertStatisticData_eq, convertLoop_getElem] at h1 h2
  cases hn1 : (enforceMonotonicTotal data)[i]? with
  | none => rw [hn1] at h1; exact absurd h1 (by simp)
  | some n1 =>
    cases hn2 : (enforceMonotonicTotal data)[i + 1]? with
    | none => rw [hn2] at h2; exact absurd h2 (by simp)
    | some n2 =>
      rw [hn1] at h1
      rw [hn2] at h2
      simp only [Option.map_some', Option.some.injEq] at h1 h2
      have hread : n1.reading ≤ n2.reading := by
        obtain ⟨hlt1, hg1⟩ := List.getElem?_eq_some.mp hn1
        obtain ⟨hlt2, hg2⟩ := List.getElem?_eq_some.mp hn2
        have := List.chain'_iff_get.mp hmono i (by omega)
        rw [List.get_eq_getElem, List.get_eq_getElem] at this
        rw [hg1, hg2] at this
        exact this
      rw [← h1, ← h2]
      dsimp only
      linarith [hread]

theorem convert_sums_monotonic_witness :
    List.Chain' (fun a b : DataPoint => a.reading ≤ b.reading)
        (enforceMonotonicTotal [⟨0, 1000⟩, ⟨1, 1005⟩]) ∧
      ((⟨0, 1000, 0⟩ : StatRow).sum ≤ (⟨1, 1005, 5⟩ : StatRow).sum) := by
  have hchain : List.Chain' (fun a b : DataPoint => a.reading ≤ b.reading)
      (enforceMonotonicTotal [⟨0, 1000⟩, ⟨1, 1005⟩]) := by
    norm_num [enforceMonotonicTotal, emtClamp, List.chain'_cons,
      List.chain'_singleton]
  refine ⟨hchain, ?_⟩
  refine convert_sums_monotonic [⟨0, 1000⟩, ⟨1, 1005⟩] none none hchain 0
    ⟨0, 1000, 0⟩ ⟨1, 1005, 5⟩ ?_ ?_ <;>
    norm_num [convertStatisticData_eq, enforceMonotonicTotal, emtClamp,
      convertLoop]

/-- Upsert one row into the statistics table, keyed by the `start` timestamp
(`async_import_statistics` semantics: always an upsert, last writer wins per
hour slot). -/
def upsertRow (store : List StatRow) (r : StatRow) : List StatRow :=
  if store.any (fun x => x.start == r.start) then
    store.map (fun x => if x.start == r.start then r else x)
  else
    store ++ [r]

/-- Upsert a batch of rows in order. -/
def applyRows (store : List StatRow) (rows : List StatRow) : List StatRow :=
  rows.foldl upsertRow store

/-- The stored row maximizing `key` (first winner kept on ties). -/
def maxByKey {α : Type} [LinearOrder α] (key : StatRow → α)
    (l : List StatRow) : Option StatRow :=
  l.foldl
    (fun acc r =>
      match acc with
      | none => some r
      | some b => if key b < key r then some r else some b)
    none

/-- The stored row with the greatest `start` timestamp: what
`get_last_imported_stat` reads back through `get_last_statistics`. -/
def maxByStart (store : List StatRow) : Option StatRow :=
  maxByKey (·.start) store

/-- The stored row with the greatest cumulative `sum`: embedding of
`async_get_highest_sum_stat` (SQL `ORDER BY sum DESC LIMIT 1`). -/
def highestSumStat (store : List StatRow) : Option StatRow :=
  maxByKey (·.sum) store

/-- One year in seconds: the look-back window of `async_get_stat_just_before`
(`before_dt - timedelta(days=365)`). -/
def yearSeconds : ℤ := 365 * 86400

/-- Embedding of `async_get_stat_just_before`: the `(state, sum)` of the last
row strictly before `beforeDt` within the one-year look-back window, or
`(none, none)` when no such row exists. -/
def asyncGetStatJustBefore (store : List StatRow) (beforeDt : ℤ) :
    Option ℚ × Option ℚ :=
  match maxByStart (store.filter fun r =>
      decide (beforeDt - yearSeconds ≤ r.start ∧ r.start < beforeDt)) with
  | some r => (some r.state, some r.sum)
  | none => (none, none)

/-- The while loop of `async_write_carry_forward_stats`
(`while current <= end`, stepping one hour), given enough fuel to cover the
range. -/
def carryLoop : ℕ → ℤ → ℤ → List ℤ
  | 0, _, _ => []
  | fuel + 1, current, endT =>
    if current ≤ endT then current :: carryLoop fuel (current + 3600) endT
    else []

/-- Embedding of `async_write_carry_forward_stats`: build a row with the
fixed carry `state`/`sum` at `from + 1h, from + 2h, ...` while the slot stays
at most `through + 1s`, upsert them all, and return the updated store with
the number of rows submitted. -/
def asyncWriteCarryForwardStats (store : List StatRow)
    (fromDt throughDt : ℤ) (carryState carrySum : ℚ) :
    List StatRow × ℕ :=
  let times :=
    carryLoop (throughDt + 2 - fromDt).toNat (fromDt + 3600) (throughDt + 1)
  let rows := times.map fun u => (⟨u, carryState, carrySum⟩ : StatRow)
  (applyRows store rows, rows.length)

/-- Embedding of the delta-base selection inside
`centralized_import_statistics`: when the first import point is at or before
the store's last row (backfill overlap), the base is the stat just before the
first import point; otherwise it is the store's latest row; `(none, none)` on
an empty store.  Components are `(state, sum)`. -/
def importDeltaBase (store : List StatRow) (firstDt : ℤ) :
    Option ℚ × Option ℚ :=
  match maxByStart store with
  | none => (none, none)
  | some tip =>
    if firstDt ≤ tip.start then asyncGetStatJustBefore store firstDt
    else (some tip.state, some tip.sum)

/-- Embedding of `centralized_import_statistics`: resolve the delta base,
convert, upsert consumption rows, optionally convert and upsert cost rows
(the whole cost block is skipped when `price` is `none`), and return the
last imported `(start, state, sum)`. -/
def centralizedImportStatistics (store costStore : List StatRow)
    (data : List DataPoint) (price : Option ℚ) :
    List StatRow × List StatRow × Option (ℤ × ℚ × ℚ) :=
  match data with
  | [] => (store, costStore, none)
  | first :: _ =>
    let base := importDeltaBase store first.dt
    let rows := convertStatisticData data base.2 base.1
    match rows.getLast? with
    | none => (store, costStore, none)
    | some lastRow =>
      let store1 := applyRows store rows
      let costStore1 :=
        match price with
        | none => costStore
        | some p =>
          let costBase := asyncGetStatJustBefore costStore first.dt
          let costRows := convertCostStatisticData data p costBase.2 base.1
          match costRows with
          | [] => costStore
          | _ :: _ => applyRows costStore costRows
      (store1, costStore1, some (lastRow.start, lastRow.state, lastRow.sum))

/-- The observable state of the configured price entity as seen by
`_resolve_price_per_unit` through the state machine. -/
inductive PriceEntityState
  | unavailable
  | unknown
  | numericStr (q : ℚ)
  | nonNumericStr
deriving DecidableEq

/-- Embedding of `EyeOnWaterUnifiedSensor._resolve_price_per_unit`: `none`
when no price entity is configured, when the entity is missing or its state
is unavailable/unknown, when the state does not parse as a number, and when
the parsed price is zero or negative; otherwise the parsed price. -/
def resolvePricePerUnit (priceEntityId : Option String)
    (entityState : Option PriceEntityState) : Option ℚ :=
  match priceEntityId with
  | none => none
  | some _ =>
    match entityState with
    | none => none
    | some .unavailable => none
    | some .unknown => none
    | some .nonNumericStr => none
    | some (.numericStr q) => if q ≤ 0 then none else some q

/-- Embedding of `EyeOnWaterUnifiedSensor._repair_sum_monotonicity`: find the
max-sum anchor; when its sum exceeds the latest row's sum by more than the
0.01 tolerance, write carry-forward rows from the anchor through the latest
stored timestamp, carrying `anchor.sum + (live - anchor.state)` when a live
entity reading is available and `anchor.sum` otherwise.  Returns the source's
`(new_effective_last_time, carry_state, correct_sum, repaired)` quadruple
together with the updated store. -/
def repairSumMonotonicity (store : List StatRow) (live : Option ℚ)
    (lastStatTime : ℤ) (lastStatSum : ℚ) :
    (Option ℤ × Option ℚ × Option ℚ × Bool) × List StatRow :=
  match highestSumStat store with
  | none => ((none, none, none, false), store)
  | some anchor =>
    if anchor.sum ≤ lastStatSum + 1 / 100 then ((none, none, none, false), store)
    else
      let carry :=
        match live with
        | some v => (v, anchor.sum + (v - anchor.state))
        | none => (anchor.state, anchor.sum)
      let written := asyncWriteCarryForwardStats store anchor.start lastStatTime
        carry.1 carry.2
      ((some lastStatTime, some carry.1, some carry.2, true), written.1)

/-- Embedding of `EyeOnWaterUnifiedSensor._repair_db_ahead_baseline`: look up
the import-time `(state, sum)` just before `effective_last_time + 1h`; when
the compiler-written latest sum disagrees with it by more than 0.01 (or is
absent), overwrite the intervening hours with carry-forward rows and advance
the in-memory baseline.  Returns the source's `(effective_last_time,
last_stat_reading, last_stat_sum, repaired)` tuple, the updated in-memory
last-imported time, and the updated store. -/
def repairDbAheadBaseline (store : List StatRow) (memory : Option ℤ)
    (lastStatTime effectiveLastTime : ℤ) (lastStatSum : Option ℚ) :
    (ℤ × Option ℚ × Option ℚ × Bool) × Option ℤ × List StatRow :=
  match asyncGetStatJustBefore store (effectiveLastTime + 3600) with
  | (some importState, some importSum) =>
    if (match lastStatSum with
        | none => true
        | some cs => decide (1 / 100 < |cs - importSum|)) then
      let written := asyncWriteCarryForwardStats store effectiveLastTime
        lastStatTime importState importSum
      ((lastStatTime, some importState, some importSum, true),
        some lastStatTime, written.1)
    else
      ((effectiveLastTime, some importState, some importSum, false),
        memory, store)
  | _ => ((effectiveLastTime, none, lastStatSum, false), memory, store)

/-- Embedding of
`EyeOnWaterUnifiedSensor._resolve_effective_last_imported_time` for the
consumption series (the optional cost-series mirror repair only touches the
separate cost store and none of the values returned here).  Returns
`(effective_last_time, last_stat_reading, last_stat_sum)` together with the
updated in-memory `_last_imported_time` and the possibly repaired store. -/
def resolveEffectiveLastImportedTime (store : List StatRow)
    (memory : Option ℤ) (live : Option ℚ) :
    (Option ℤ × Option ℚ × Option ℚ) × Option ℤ × List StatRow :=
  let lastStat := maxByStart store
  let p1 : (Option ℤ × Option ℚ × Option ℚ) × Option ℤ × List StatRow :=
    match lastStat, memory with
    | none, some _ => ((none, none, none), none, store)
    | none, none => ((none, none, none), none, store)
    | some row, none =>
      ((some row.start, some row.state, some row.sum), some row.start, store)
    | some row, some e =>
      if row.start < e then
        ((some row.start, some row.state, some row.sum), some row.start, store)
      else if e < row.start then
        let rep := repairDbAheadBaseline store (some e) row.start e (some row.sum)
        ((some rep.1.1, rep.1.2.1, rep.1.2.2.1), rep.2.1, rep.2.2)
      else ((some e, some row.state, some row.sum), some e, store)
  match lastStat, p1.1.2.2 with
  | some row, some s =>
    let rep2 := repairSumMonotonicity p1.2.2 live row.start s
    if rep2.1.2.2.2 then
      ((rep2.1.1, rep2.1.2.1, rep2.1.2.2.1), some row.start, rep2.2)
    else p1
  | _, _ => p1

theorem upsertRow_mem (store : List StatRow) (r x : StatRow) :
    x ∈ upsertRow store r ↔ x = r ∨ (x ∈ store ∧ x.start ≠ r.start) := by
  rw [upsertRow]
  by_cases h : store.any (fun y => y.start == r.start) = true
  · rw [if_pos h]
    obtain ⟨w, hw, hweq⟩ := List.any_eq_true.mp h
    rw [beq_iff_eq] at hweq
    constructor
    · intro hx
      obtain ⟨y, hy, hyx⟩ := List.mem_map.mp hx
      by_cases hys : y.start = r.start
      · rw [if_pos (beq_iff_eq.mpr hys)] at hyx
        exact Or.inl hyx.symm
      · rw [if_neg (by simpa using hys)] at hyx
        exact Or.inr ⟨hyx ▸ hy, hyx ▸ hys⟩
    · rintro (rfl | ⟨hx, hxs⟩)
      · refine List.mem_map.mpr ⟨w, hw, ?_⟩
        rw [if_pos (beq_iff_eq.mpr hweq)]
      · refine List.mem_map.mpr ⟨x, hx, ?_⟩
        rw [if_neg (by simpa using hxs)]
  · rw [if_neg h]
    have hnone : ∀ y ∈ store, y.start ≠ r.start := by
      intro y hy hyr
      exact h (List.any_eq_true.mpr ⟨y, hy, beq_iff_eq.mpr hyr⟩)
    rw [List.mem_append, List.mem_singleton]
    constructor
    · rintro (hx | rfl)
      · exact Or.inr ⟨hx, hnone x hx⟩
      · exact Or.inl rfl
    · rintro (rfl | ⟨hx, _⟩)
      · exact Or.inr rfl
      · exact Or.inl hx

theorem applyRows_uniform (rows : List StatRow) (cs cm : ℚ)
    (huni : ∀ r ∈ rows, r.state = cs ∧ r.sum = cm) :
    ∀ (store : List StatRow) (x : StatRow),
      x ∈ applyRows store rows ↔
        (x.start ∈ rows.map (·.start) ∧ x.state = cs ∧ x.sum = cm) ∨
          (x ∈ store ∧ x.start ∉ rows.map (·.start)) := by
  induction rows with
  | nil =>
    intro store x
    simp [applyRows]
  | cons r rs ih =>
    intro store x
    have hr := huni r (List.mem_cons_self r rs)
    have huni' : ∀ q ∈ rs, q.state = cs ∧ q.sum = cm := by
      intro q hq
      exact huni q (List.mem_cons_of_mem r hq)
    show x ∈ applyRows (upsertRow store r) rs ↔ _
    rw [ih huni' (upsertRow store r) x]
    rw [upsertRow_mem]
    simp only [List.map_cons, List.mem_cons, not_or]
    constructor
    · rintro (⟨hk, hs, hm⟩ | ⟨(rfl | ⟨hx, hxs⟩), hnk⟩)
      · exact Or.inl ⟨Or.inr hk, hs, hm⟩
      · exact Or.inl ⟨Or.inl rfl, hr.1, hr.2⟩
      · exact Or.inr ⟨hx, hxs, hnk⟩
    · rintro (⟨(hk | hk), hs, hm⟩ | ⟨hx, hxr, hnk⟩)
      · by_cases hin : x.start ∈ rs.map (·.start)
        · exact Or.inl ⟨hin, hs, hm⟩
        · refine Or.inr ⟨Or.inl ?_, hin⟩
          exact StatRow.ext hk (hs.trans hr.1.symm) (hm.trans hr.2.symm)
      · exact Or.inl ⟨hk, hs, hm⟩
      · exact Or.inr ⟨Or.inr ⟨hx, hxr⟩, hnk⟩

theorem upsertRow_self (s : List StatRow) (r : StatRow) (hmem : r ∈ s)
    (huniq : ∀ x ∈ s, x.start = r.start → x = r) : upsertRow s r = s := by
  have hany : (s.any fun x => x.start == r.start) = true := by
    refine List.any_eq_true.mpr ⟨r, hmem, ?_⟩
    exact beq_iff_eq.mpr rfl
  rw [upsertRow, if_pos hany]
  have hcongr : List.map (fun x => if (x.start == r.start) = true then r else x) s =
      List.map id s := by
    apply List.map_congr_left
    intro x hx
    by_cases hxs : x.start = r.start
    · rw [if_pos (beq_iff_eq.mpr hxs)]
      exact (huniq x hx hxs).symm
    · rw [if_neg (by simpa using hxs)]
      rfl
  rw [hcongr, List.map_id]

theorem applyRows_self (rows : List StatRow) :
    ∀ s : List StatRow,
      (∀ r ∈ rows, r ∈ s ∧ ∀ x ∈ s, x.start = r.start → x = r) →
      applyRows s rows = s := by
  induction rows with
  | nil => intro s _; rfl
  | cons r rs ih =>
    intro s h
    obtain ⟨hmem, huniq⟩ := h r (List.mem_cons_self r rs)
    show applyRows (upsertRow s r) rs = s
    rw [upsertRow_self s r hmem huniq]
    refine ih s ?_
    intro q hq
    exact h q (List.mem_cons_of_mem r hq)

theorem maxByKey_foldl_spec {α : Type} [LinearOrder α] (key : StatRow → α)
    (l : List StatRow) :
    ∀ (b r : StatRow),
      l.foldl
        (fun acc x =>
          match acc with
          | none => some x
          | some c => if key c < key x then some x else some c)
        (some b) = some r →
      (r = b ∨ r ∈ l) ∧ key b ≤ key r ∧ ∀ x ∈ l, key x ≤ key r := by
  induction l with
  | nil =>
    intro b r h
    simp only [List.foldl_nil, Option.some.injEq] at h
    exact ⟨Or.inl h.symm, le_of_eq (by rw [h]), by simp⟩
  | cons x xs ih =>
    intro b r h
    rw [List.foldl_cons] at h
    by_cases hbx : key b < key x
    · rw [show (match some b with
          | none => some x
          | some c => if key c < key x then some x else some c) = some x from by
            simp [hbx]] at h
      obtain ⟨hmem, hle, hall⟩ := ih x r h
      refine ⟨?_, ?_, ?_⟩
      · cases hmem with
        | inl heq => exact Or.inr (by rw [heq]; exact List.mem_cons_self x xs)
        | inr hmem => exact Or.inr (List.mem_cons_of_mem x hmem)
      · exact le_trans (le_of_lt hbx) hle
      · intro y hy
        rcases List.mem_cons.mp hy with rfl | hy
        · exact hle
        · exact hall y hy
    · rw [show (match some b with
          | none => some x
          | some c => if key c < key x then some x else some c) = some b from by
            simp [hbx]] at h
      obtain ⟨hmem, hle, hall⟩ := ih b r h
      refine ⟨?_, hle, ?_⟩
      · cases hmem with
        | inl heq => exact Or.inl heq
        | inr hmem => exact Or.inr (List.mem_cons_of_mem x hmem)
      · intro y hy
        rcases List.mem_cons.mp hy with rfl | hy
        · exact le_trans (not_lt.mp hbx) hle
        · exact hall y hy

theorem maxByKey_spec {α : Type} [LinearOrder α] (key : StatRow → α)
    (l : List StatRow) (r : StatRow) (h : maxByKey key l = some r) :
    r ∈ l ∧ ∀ x ∈ l, key x ≤ key r := by
  cases l with
  | nil => exact Option.noConfusion h
  | cons x xs =>
    have h' := h
    rw [maxByKey, List.foldl_cons] at h'
    obtain ⟨hmem, _, hall⟩ := maxByKey_foldl_spec key xs x r h'
    refine ⟨?_, ?_⟩
    · cases hmem with
      | inl heq => rw [heq]; exact List.mem_cons_self x xs
      | inr hmem => exact List.mem_cons_of_mem x hmem
    · intro y hy
      rcases List.mem_cons.mp hy with rfl | hy
      · obtain ⟨_, hle, _⟩ := maxByKey_foldl_spec key xs y r h'
        exact hle
      · exact hall y hy

theorem maxByKey_eq_none {α : Type} [LinearOrder α] (key : StatRow → α)
    (l : List StatRow) : maxByKey key l = none ↔ l = [] := by
  cases l with
  | nil => exact iff_of_true rfl rfl
  | cons x xs =>
    rw [iff_false_intro (List.cons_ne_nil x xs), iff_false]
    intro h
    rw [maxByKey, List.foldl_cons] at h
    obtain ⟨r, hr⟩ : ∃ r, xs.foldl
        (fun acc y =>
          match acc with
          | none => some y
          | some c => if key c < key y then some y else some c)
        (some x) = some r := by
      clear h
      induction xs generalizing x with
      | nil => exact ⟨x, rfl⟩
      | cons y ys ihy =>
        rw [List.foldl_cons]
        by_cases hxy : key x < key y
        · rw [show (match some x with
              | none => some y
              | some c => if key c < key y then some y else some c) = some y from by
                simp [hxy]]
          exact ihy y
        · rw [show (match some x with
              | none => some y
              | some c => if key c < key y then some y else some c) = some x from by
                simp [hxy]]
          exact ihy x
    rw [hr] at h
    exact Option.noConfusion h

theorem carryLoop_mem (fuel : ℕ) :
    ∀ c e t : ℤ, (e + 1 - c).toNat ≤ fuel →
      (t ∈ carryLoop fuel c e ↔ ∃ k : ℕ, t = c + 3600 * k ∧ t ≤ e) := by
  induction fuel with
  | zero =>
    intro c e t hf
    constructor
    · intro h
      exact absurd h (by simp [carryLoop])
    · rintro ⟨k, rfl, hle⟩
      exfalso
      omega
  | succ n ih =>
    intro c e t hf
    rw [carryLoop]
    by_cases hce : c ≤ e
    · rw [if_pos hce, List.mem_cons, ih (c + 3600) e t (by omega)]
      constructor
      · rintro (rfl | ⟨k, rfl, hle⟩)
        · exact ⟨0, by omega, hce⟩
        · exact ⟨k + 1, by push_cast; ring, hle⟩
      · rintro ⟨k, rfl, hle⟩
        cases k with
        | zero => exact Or.inl (by omega)
        | succ m => exact Or.inr ⟨m, by push_cast; ring, hle⟩
    · rw [if_neg hce]
      constructor
      · intro h
        exact absurd h (by simp)
      · rintro ⟨k, rfl, hle⟩
        exfalso
        have hk : (0 : ℤ) ≤ 3600 * (k : ℤ) := by positivity
        omega

theorem carryLoop_length (fuel : ℕ) :
    ∀ c e : ℤ, (e + 1 - c).toNat ≤ fuel →
      ((carryLoop fuel c e).length : ℤ) =
        if c ≤ e then (e - c) / 3600 + 1 else 0 := by
  induction fuel with
  | zero =>
    intro c e hf
    rw [if_neg (by omega)]
    rfl
  | succ n ih =>
    intro c e hf
    rw [carryLoop]
    by_cases hce : c ≤ e
    · rw [if_pos hce, if_pos hce]
      simp only [List.length_cons]
      push_cast
      rw [ih (c + 3600) e (by omega)]
      by_cases h2 : c + 3600 ≤ e
      · rw [if_pos h2]
        omega
      · rw [if_neg h2]
        omega
    · rw [if_neg hce, if_neg hce]
      rfl

/-- C5 (amended): for hour-aligned instants `from < through`, the
carry-forward writer upserts a row with exactly the given carry state and sum
at every hour boundary strictly after `from` up to and including `through`
(and touches no other slot), and the returned count equals the number of
those hour boundaries, i.e. `3600 * count = through - from`.  (The claim as
frozen quantifies over arbitrary instants; for a misaligned range the
`through + 1s` inclusive loop bound also writes a row strictly after
`through` — see the counterexample.) -/
theorem write_carry_forward_spec (store : List StatRow)
    (fromDt throughDt : ℤ) (cs cm : ℚ)
    (hfrom : fromDt % 3600 = 0) (hthrough : throughDt % 3600 = 0)
    (hlt : fromDt < throughDt) :
    (∀ x : StatRow,
        x ∈ (asyncWriteCarryForwardStats store fromDt throughDt cs cm).1 ↔
          (x.start % 3600 = 0 ∧ fromDt < x.start ∧ x.start ≤ throughDt ∧
              x.state = cs ∧ x.sum = cm) ∨
            (x ∈ store ∧
              ¬(x.start % 3600 = 0 ∧ fromDt < x.start ∧
                x.start ≤ throughDt))) ∧
      3600 * ((asyncWriteCarryForwardStats store fromDt throughDt cs cm).2 : ℤ)
        = throughDt - fromDt := by
  have hfuel : ((throughDt + 1) + 1 - (fromDt + 3600)).toNat ≤
      (throughDt + 2 - fromDt).toNat := by omega
  have htimes : ∀ t : ℤ,
      t ∈ carryLoop (throughDt + 2 - fromDt).toNat (fromDt + 3600)
          (throughDt + 1) ↔
        (t % 3600 = 0 ∧ fromDt < t ∧ t ≤ throughDt) := by
    intro t
    rw [carryLoop_mem (throughDt + 2 - fromDt).toNat (fromDt + 3600)
      (throughDt + 1) t hfuel]
    constructor
    · rintro ⟨k, rfl, hle⟩
      omega
    · rintro ⟨hmod, hgt, hle⟩
      exact ⟨(t - fromDt - 3600).toNat / 3600, by omega, by omega⟩
  constructor
  · intro x
    show x ∈ applyRows store _ ↔ _
    rw [applyRows_uniform _ cs cm
      (by
        intro r hr
        obtain ⟨u, _, rfl⟩ := List.mem_map.mp hr
        exact ⟨rfl, rfl⟩) store x]
    rw [List.map_map]
    have hkeys : List.map ((fun x : StatRow => x.start) ∘
        fun u => (⟨u, cs, cm⟩ : StatRow))
          (carryLoop (throughDt + 2 - fromDt).toNat (fromDt + 3600)
            (throughDt + 1)) =
        carryLoop (throughDt + 2 - fromDt).toNat (fromDt + 3600)
          (throughDt + 1) :=
      List.map_id _
    rw [hkeys]
    rw [htimes x.start]
    constructor
    · rintro (⟨⟨h1, h2, h3⟩, h4, h5⟩ | ⟨h1, h2⟩)
      · exact Or.inl ⟨h1, h2, h3, h4, h5⟩
      · exact Or.inr ⟨h1, h2⟩
    · rintro (⟨h1, h2, h3, h4, h5⟩ | ⟨h1, h2⟩)
      · exact Or.inl ⟨⟨h1, h2, h3⟩, h4, h5⟩
      · exact Or.inr ⟨h1, h2⟩
  · show 3600 * ((List.map _ (carryLoop _ _ _)).length : ℤ) = _
    rw [List.length_map]
    rw [carryLoop_length (throughDt + 2 - fromDt).toNat (fromDt + 3600)
      (throughDt + 1) hfuel]
    rw [if_pos (by omega)]
    omega

theorem write_carry_forward_spec_witness :
    ((0 : ℤ) % 3600 = 0 ∧ (7200 : ℤ) % 3600 = 0 ∧ (0 : ℤ) < 7200) ∧
      3600 * ((asyncWriteCarryForwardStats [] 0 7200 (5 : ℚ) (9 : ℚ)).2 : ℤ) =
        7200 - 0 := by
  refine ⟨⟨by decide, by decide, by decide⟩, ?_⟩
  exact (write_carry_forward_spec [] 0 7200 5 9 (by decide) (by decide)
    (by decide)).2

/-- C5 counterexample: with `from = 0` and the misaligned `through = 3599`
the writer upserts a row at slot `3600`, strictly after `through`, so the
claim's "up to and including `through`" fails as stated for arbitrary
instants. -/
theorem write_carry_forward_counterexample :
    (⟨3600, 1, 2⟩ : StatRow) ∈ (asyncWriteCarryForwardStats [] 0 3599 1 2).1 ∧
      ¬((3600 : ℤ) ≤ 3599) := by
  constructor
  · decide
  · decide

/-- C6: the carry-forward repair is idempotent: calling the writer twice
with identical arguments leaves the store in the same final state as calling
it once (upsert semantics, last writer wins per hour slot). -/
theorem write_carry_forward_idempotent (store : List StatRow)
    (fromDt throughDt : ℤ) (cs cm : ℚ) :
    (asyncWriteCarryForwardStats
        (asyncWriteCarryForwardStats store fromDt throughDt cs cm).1
        fromDt throughDt cs cm).1 =
      (asyncWriteCarryForwardStats store fromDt throughDt cs cm).1 := by
  show applyRows (applyRows store _) _ = applyRows store _
  set rows := (carryLoop (throughDt + 2 - fromDt).toNat (fromDt + 3600)
      (throughDt + 1)).map (fun u => (⟨u, cs, cm⟩ : StatRow)) with hrows
  have huni : ∀ r ∈ rows, r.state = cs ∧ r.sum = cm := by
    intro r hr
    obtain ⟨u, _, rfl⟩ := List.mem_map.mp hr
    exact ⟨rfl, rfl⟩
  apply applyRows_self
  intro r hr
  have hrkey : r.start ∈ rows.map (·.start) := List.mem_map.mpr ⟨r, hr, rfl⟩
  constructor
  · rw [applyRows_uniform rows cs cm huni store r]
    exact Or.inl ⟨hrkey, (huni r hr).1, (huni r hr).2⟩
  · intro x hx hxr
    rw [applyRows_uniform rows cs cm huni store x] at hx
    rcases hx with ⟨_, hxs, hxm⟩ | ⟨_, hnk⟩
    · refine StatRow.ext hxr ?_ ?_
      · exact hxs.trans (huni r hr).1.symm
      · exact hxm.trans (huni r hr).2.symm
    · exact absurd (hxr ▸ hrkey) hnk

/-- C1: for an import whose first data point is at or before the store's
latest row, the delta base used for conversion is the `(state, sum)` of the
last stored row strictly before the first import timestamp within the
one-year look-back window — not the store's globally-latest row — and when no
such prior row exists the base is `(none, none)`, so the first converted row
gets delta 0 (sum 0). -/
theorem import_delta_base_spec (store : List StatRow) (data : List DataPoint)
    (first : DataPoint) (rest : List DataPoint) (tip : StatRow)
    (hdata : data = first :: rest)
    (htip : maxByStart store = some tip)
    (hoverlap : first.dt ≤ tip.start) :
    importDeltaBase store first.dt = asyncGetStatJustBefore store first.dt ∧
      (∀ st sm : ℚ,
        asyncGetStatJustBefore store first.dt = (some st, some sm) →
          ∃ r ∈ store, r.state = st ∧ r.sum = sm ∧
            first.dt - yearSeconds ≤ r.start ∧ r.start < first.dt ∧
            ∀ r2 ∈ store, first.dt - yearSeconds ≤ r2.start →
              r2.start < first.dt → r2.start ≤ r.start) ∧
      ((∀ r ∈ store,
          ¬(first.dt - yearSeconds ≤ r.start ∧ r.start < first.dt)) →
        asyncGetStatJustBefore store first.dt = (none, none) ∧
          ((convertStatisticData data none none)[0]?).map (·.sum) = some 0) := by
  refine ⟨?_, ?_, ?_⟩
  · rw [importDeltaBase, htip]
    exact if_pos hoverlap
  · intro st sm h
    rw [asyncGetStatJustBefore] at h
    cases hm : maxByStart (store.filter fun r =>
        decide (first.dt - yearSeconds ≤ r.start ∧ r.start < first.dt)) with
    | none => rw [hm] at h; exact absurd h (by simp)
    | some r =>
      rw [hm] at h
      simp only [Prod.mk.injEq, Option.some.injEq] at h
      obtain ⟨hmem, hall⟩ := maxByKey_spec (·.start) _ r hm
      obtain ⟨hrstore, hrcond⟩ := List.mem_filter.mp hmem
      rw [decide_eq_true_eq] at hrcond
      refine ⟨r, hrstore, h.1, h.2, hrcond.1, hrcond.2, ?_⟩
      intro r2 hr2 hw1 hw2
      exact hall r2 (List.mem_filter.mpr ⟨hr2, decide_eq_true_eq.mpr ⟨hw1, hw2⟩⟩)
  · intro hnone
    have hfilter : (store.filter fun r =>
        decide (first.dt - yearSeconds ≤ r.start ∧ r.start < first.dt)) = [] := by
      rw [List.filter_eq_nil_iff]
      intro a ha
      rw [decide_eq_true_eq]
      exact hnone a ha
    have hjb : asyncGetStatJustBefore store first.dt = (none, none) := by
      rw [asyncGetStatJustBefore, hfilter]
      rfl
    refine ⟨hjb, ?_⟩
    subst hdata
    rw [convertStatisticData_eq, enforceMonotonicTotal, convertLoop_getElem]
    simp

theorem import_delta_base_spec_witness :
    (([⟨3, 53⟩] : List DataPoint) = ⟨3, 53⟩ :: [] ∧
        maxByStart [⟨2, 50, 40⟩, ⟨10, 60, 100⟩] = some ⟨10, 60, 100⟩ ∧
        (3 : ℤ) ≤ (10 : ℤ)) ∧
      importDeltaBase [⟨2, 50, 40⟩, ⟨10, 60, 100⟩] 3 =
        asyncGetStatJustBefore [⟨2, 50, 40⟩, ⟨10, 60, 100⟩] 3 ∧
      asyncGetStatJustBefore [⟨2, 50, 40⟩, ⟨10, 60, 100⟩] 3 =
        (some 50, some 40) ∧
      ((convertStatisticData [⟨3, 53⟩] (some 40) (some 50))[0]?).map (·.sum) =
        some 43 := by
  have htip : maxByStart [⟨2, 50, 40⟩, ⟨10, 60, 100⟩] = some ⟨10, 60, 100⟩ := by
    decide
  refine ⟨⟨rfl, htip, by decide⟩, ?_, by decide, ?_⟩
  · exact (import_delta_base_spec [⟨2, 50, 40⟩, ⟨10, 60, 100⟩] [⟨3, 53⟩]
      ⟨3, 53⟩ [] ⟨10, 60, 100⟩ rfl htip (by decide)).1
  · have h43 : (40 : ℚ) + ((53 : ℚ) - 50) = 43 := by norm_num
    rw [convertStatisticData_eq, enforceMonotonicTotal, convertLoop_getElem]
    simp only [List.getElem?_cons_zero, Option.map_some', Option.some.injEq]
    exact h43

/-- Unfolding equation for `centralizedImportStatistics` on non-empty data. -/
theorem centralizedImportStatistics_cons (store costStore : List StatRow)
    (first : DataPoint) (rest : List DataPoint) (price : Option ℚ) :
    centralizedImportStatistics store costStore (first :: rest) price =
      (match (convertStatisticData (first :: rest)
            (importDeltaBase store first.dt).2
            (importDeltaBase store first.dt).1).getLast? with
       | none => (store, costStore, none)
       | some lastRow =>
         (applyRows store (convertStatisticData (first :: rest)
             (importDeltaBase store first.dt).2
             (importDeltaBase store first.dt).1),
          (match price with
           | none => costStore
           | some p =>
             match convertCostStatisticData (first :: rest) p
                 (asyncGetStatJustBefore costStore first.dt).2
                 (importDeltaBase store first.dt).1 with
             | [] => costStore
             | _ :: _ =>
               applyRows costStore (convertCostStatisticData (first :: rest) p
                 (asyncGetStatJustBefore costStore first.dt).2
                 (importDeltaBase store first.dt).1)),
          some (lastRow.start, lastRow.state, lastRow.sum))) := rfl

/-- C8: whenever baseline resolution finds zero stored rows for the
consumption series while the in-memory last-imported time is not `none`, it
resets the in-memory timestamp and returns an empty baseline
(`effective_last_time = none`), never a stale timestamp. -/
theorem resolve_empty_store_resets (memoryT : ℤ) (live : Option ℚ) :
    resolveEffectiveLastImportedTime [] (some memoryT) live =
      ((none, none, none), none, []) := rfl

/-- C9: the cost import is skipped entirely — consumption import still
proceeds — whenever no price source is configured, or the price source's last
known value is absent, stale (unavailable/unknown), non-numeric, or
non-positive: in each such case the resolved price is `none`, and an
invocation with price `none` writes no cost rows while still returning a
consumption result. -/
theorem cost_import_skipped (priceEntityId : Option String)
    (entityState : Option PriceEntityState)
    (hbad : priceEntityId = none ∨ entityState = none ∨
      entityState = some .unavailable ∨ entityState = some .unknown ∨
      entityState = some .nonNumericStr ∨
      ∃ q : ℚ, q ≤ 0 ∧ entityState = some (.numericStr q)) :
    resolvePricePerUnit priceEntityId entityState = none ∧
      ∀ (store costStore : List StatRow) (first : DataPoint)
        (rest : List DataPoint),
        (centralizedImportStatistics store costStore (first :: rest)
            none).2.1 = costStore ∧
          (centralizedImportStatistics store costStore (first :: rest)
            none).2.2 ≠ none := by
  constructor
  · cases hid : priceEntityId with
    | none => rfl
    | some pid =>
      rcases hbad with h | h | h | h | h | ⟨q, hq, h⟩
      · exact Option.noConfusion (hid.symm.trans h)
      · rw [h]
        rfl
      · rw [h]
        rfl
      · rw [h]
        rfl
      · rw [h]
        rfl
      · rw [h]
        exact if_pos hq
  · intro store costStore first rest
    have hshape : convertStatisticData (first :: rest)
        (importDeltaBase store first.dt).2
        (importDeltaBase store first.dt).1 =
        ⟨first.dt, first.reading,
            (importDeltaBase store first.dt).2.getD 0 +
              (first.reading -
                match (importDeltaBase store first.dt).1 with
                | some r => r
                | none => first.reading)⟩ ::
          convertLoop first.reading
            ((importDeltaBase store first.dt).2.getD 0 +
              (first.reading -
                match (importDeltaBase store first.dt).1 with
                | some r => r
                | none => first.reading))
            (emtClamp first.reading rest) := by
      rw [convertStatisticData_eq, enforceMonotonicTotal, convertLoop]
    rw [centralizedImportStatistics_cons]
    cases hlast : (convertStatisticData (first :: rest)
        (importDeltaBase store first.dt).2
        (importDeltaBase store first.dt).1).getLast? with
    | none =>
      rw [hshape] at hlast
      exact absurd hlast (by simp)
    | some lastRow => exact ⟨rfl, by simp⟩

theorem cost_import_skipped_witness :
    ((none : Option String) = none ∨ (none : Option PriceEntityState) = none ∨
        (none : Option PriceEntityState) = some .unavailable ∨
        (none : Option PriceEntityState) = some .unknown ∨
        (none : Option PriceEntityState) = some .nonNumericStr ∨
        ∃ q : ℚ, q ≤ 0 ∧
          (none : Option PriceEntityState) = some (.numericStr q)) ∧
      resolvePricePerUnit none none = none ∧
      (centralizedImportStatistics [] [] [⟨0, 5⟩] none).2.1 = [] ∧
      (centralizedImportStatistics [] [] [⟨0, 5⟩] none).2.2 ≠ none := by
  have hbad : (none : Option String) = none ∨
      (none : Option PriceEntityState) = none ∨
      (none : Option PriceEntityState) = some .unavailable ∨
      (none : Option PriceEntityState) = some .unknown ∨
      (none : Option PriceEntityState) = some .nonNumericStr ∨
      ∃ q : ℚ, q ≤ 0 ∧
        (none : Option PriceEntityState) = some (.numericStr q) := Or.inl rfl
  have h := cost_import_skipped none none hbad
  exact ⟨hbad, h.1, (h.2 [] [] ⟨0, 5⟩ []).1, (h.2 [] [] ⟨0, 5⟩ []).2⟩

theorem nodup_start_eq {l : List StatRow} (h : (l.map (·.start)).Nodup)
    {x y : StatRow} (hx : x ∈ l) (hy : y ∈ l) (hxy : x.start = y.start) :
    x = y :=
  List.inj_on_of_nodup_map h hx hy hxy

theorem write_carry_forward_mem (store : List StatRow)
    (fromDt throughDt : ℤ) (cs cm : ℚ) (x : StatRow) :
    x ∈ (asyncWriteCarryForwardStats store fromDt throughDt cs cm).1 ↔
      ((∃ k : ℕ, x.start = fromDt + 3600 + 3600 * k ∧
          x.start ≤ throughDt + 1) ∧ x.state = cs ∧ x.sum = cm) ∨
        (x ∈ store ∧
          ¬∃ k : ℕ, x.start = fromDt + 3600 + 3600 * k ∧
            x.start ≤ throughDt + 1) := by
  have hfuel : ((throughDt + 1) + 1 - (fromDt + 3600)).toNat ≤
      (throughDt + 2 - fromDt).toNat := by omega
  show x ∈ applyRows store _ ↔ _
  rw [applyRows_uniform _ cs cm
    (by
      intro r hr
      obtain ⟨u, _, rfl⟩ := List.mem_map.mp hr
      exact ⟨rfl, rfl⟩) store x]
  rw [List.map_map]
  have hkeys : List.map ((fun y : StatRow => y.start) ∘
      fun u => (⟨u, cs, cm⟩ : StatRow))
        (carryLoop (throughDt + 2 - fromDt).toNat (fromDt + 3600)
          (throughDt + 1)) =
      carryLoop (throughDt + 2 - fromDt).toNat (fromDt + 3600)
        (throughDt + 1) :=
    List.map_id _
  rw [hkeys]
  rw [carryLoop_mem (throughDt + 2 - fromDt).toNat (fromDt + 3600)
    (throughDt + 1) x.start hfuel]

theorem carry_forward_monotone_from_anchor (store : List StatRow)
    (anchor : StatRow) (lastT : ℤ) (cs cm : ℚ)
    (hmem : anchor ∈ store)
    (hnodup : (store.map (·.start)).Nodup)
    (hgrid : ∀ r ∈ store, r.start % 3600 = 0)
    (hlastT : ∀ r ∈ store, r.start ≤ lastT)
    (hcm : anchor.sum ≤ cm) :
    ∀ r1 ∈ (asyncWriteCarryForwardStats store anchor.start lastT cs cm).1,
      ∀ r2 ∈ (asyncWriteCarryForwardStats store anchor.start lastT cs cm).1,
        anchor.start ≤ r1.start → r1.start ≤ r2.start → r1.sum ≤ r2.sum := by
  have hchar : ∀ r ∈ (asyncWriteCarryForwardStats store anchor.start lastT
      cs cm).1, anchor.start ≤ r.start →
      r = anchor ∨ (r.sum = cm ∧ anchor.start < r.start) := by
    intro r hr hge
    rw [write_carry_forward_mem] at hr
    rcases hr with ⟨⟨k, hk, hkle⟩, _, hm⟩ | ⟨hin, hnk⟩
    · right
      refine ⟨hm, ?_⟩
      have hk0 : (0 : ℤ) ≤ 3600 * (k : ℤ) := by positivity
      omega
    · by_cases heq : r.start = anchor.start
      · exact Or.inl (nodup_start_eq hnodup hin hmem heq)
      · exfalso
        apply hnk
        have h1 : r.start % 3600 = 0 := hgrid r hin
        have h2 : anchor.start % 3600 = 0 := hgrid anchor hmem
        have h3 : r.start ≤ lastT := hlastT r hin
        exact ⟨((r.start - anchor.start - 3600) / 3600).toNat, by omega, by omega⟩
  intro r1 hr1 r2 hr2 h1 h12
  rcases hchar r1 hr1 h1 with heq1 | ⟨hs1, hgt1⟩
  · rcases hchar r2 hr2 (le_trans h1 h12) with heq2 | ⟨hs2, _⟩
    · rw [heq1, heq2]
    · rw [heq1, hs2]
      exact hcm
  · rcases hchar r2 hr2 (le_trans h1 h12) with heq2 | ⟨hs2, _⟩
    · exfalso
      rw [heq2] at h12
      omega
    · rw [hs1, hs2]

/-- C4 (amended): whenever the max-sum anchor exceeds the latest row's sum by
more than the 0.01 tolerance, a carry-forward repair is issued from the
anchor row through the latest stored timestamp with carried sum
`anchor.sum + (live - anchor.state)` when a live reading is available and
`anchor.sum` otherwise; after the repair the stored sums at timestamps at or
after the anchor are non-decreasing — given distinct, hour-aligned row keys
that do not exceed the latest timestamp, and a live reading (when present) at
least the anchor's state.  (The claim as frozen asserts that *all* stored
sums are non-decreasing afterwards; rows strictly before the anchor are left
untouched, so corruption in that prefix survives — see the counterexample.) -/
theorem repair_sum_monotonicity_spec (store : List StatRow) (live : Option ℚ)
    (lastT : ℤ) (lastS : ℚ) (anchor : StatRow)
    (hanchor : highestSumStat store = some anchor)
    (htrig : lastS + 1 / 100 < anchor.sum)
    (hnodup : (store.map (·.start)).Nodup)
    (hgrid : ∀ r ∈ store, r.start % 3600 = 0)
    (hlastT : ∀ r ∈ store, r.start ≤ lastT)
    (hlive : ∀ v, live = some v → anchor.state ≤ v) :
    repairSumMonotonicity store live lastT lastS =
      ((some lastT,
          some (match live with | some v => v | none => anchor.state),
          some (match live with
            | some v => anchor.sum + (v - anchor.state)
            | none => anchor.sum), true),
        (asyncWriteCarryForwardStats store anchor.start lastT
          (match live with | some v => v | none => anchor.state)
          (match live with
            | some v => anchor.sum + (v - anchor.state)
            | none => anchor.sum)).1) ∧
      ∀ r1 ∈ (repairSumMonotonicity store live lastT lastS).2,
        ∀ r2 ∈ (repairSumMonotonicity store live lastT lastS).2,
          anchor.start ≤ r1.start → r1.start ≤ r2.start → r1.sum ≤ r2.sum := by
  have hmem : anchor ∈ store := (maxByKey_spec (·.sum) store anchor hanchor).1
  have hrep : repairSumMonotonicity store live lastT lastS =
      ((some lastT,
          some (match live with | some v => v | none => anchor.state),
          some (match live with
            | some v => anchor.sum + (v - anchor.state)
            | none => anchor.sum), true),
        (asyncWriteCarryForwardStats store anchor.start lastT
          (match live with | some v => v | none => anchor.state)
          (match live with
            | some v => anchor.sum + (v - anchor.state)
            | none => anchor.sum)).1) := by
    simp only [repairSumMonotonicity, hanchor]
    rw [if_neg (not_le.mpr htrig)]
    cases live <;> rfl
  refine ⟨hrep, ?_⟩
  rw [hrep]
  cases live with
  | none =>
    exact carry_forward_monotone_from_anchor store anchor lastT anchor.state
      anchor.sum hmem hnodup hgrid hlastT (le_refl _)
  | some v =>
    refine carry_forward_monotone_from_anchor store anchor lastT v
      (anchor.sum + (v - anchor.state)) hmem hnodup hgrid hlastT ?_
    have hv : anchor.state ≤ v := hlive v rfl
    linarith

theorem repair_sum_monotonicity_spec_witness :
    (highestSumStat [⟨0, 100, 10⟩, ⟨3600, 102, 30⟩, ⟨7200, 103, 8⟩] =
          some ⟨3600, 102, 30⟩ ∧
        (8 : ℚ) + 1 / 100 < (30 : ℚ)) ∧
      repairSumMonotonicity [⟨0, 100, 10⟩, ⟨3600, 102, 30⟩, ⟨7200, 103, 8⟩]
          none 7200 8 =
        ((some 7200, some 102, some 30, true),
          (asyncWriteCarryForwardStats
            [⟨0, 100, 10⟩, ⟨3600, 102, 30⟩, ⟨7200, 103, 8⟩]
            3600 7200 102 30).1) := by
  have h1 : highestSumStat [⟨0, 100, 10⟩, ⟨3600, 102, 30⟩, ⟨7200, 103, 8⟩] =
      some ⟨3600, 102, 30⟩ := by decide
  have h2 : (8 : ℚ) + 1 / 100 < (30 : ℚ) := by norm_num
  refine ⟨⟨h1, h2⟩, ?_⟩
  exact (repair_sum_monotonicity_spec
    [⟨0, 100, 10⟩, ⟨3600, 102, 30⟩, ⟨7200, 103, 8⟩] none 7200 8
    ⟨3600, 102, 30⟩ h1 h2 (by decide) (by decide) (by decide)
    (fun v hv => Option.noConfusion hv)).1

/-- C4 counterexample: on stored sums `[10, 5, 30, 8]` (hour slots
0..10800) the repair triggers from the max-sum anchor at `t = 7200` and
carries `sum = 30` through `t = 10800`, but the rows before the anchor keep
sums `10, 5`, so the repaired store still violates "all stored sums are
non-decreasing". -/
theorem repair_sum_monotonicity_counterexample :
    (⟨0, 100, 10⟩ : StatRow) ∈
        (repairSumMonotonicity
          [⟨0, 100, 10⟩, ⟨3600, 101, 5⟩, ⟨7200, 102, 30⟩, ⟨10800, 103, 8⟩]
          none 10800 8).2 ∧
      (⟨3600, 101, 5⟩ : StatRow) ∈
        (repairSumMonotonicity
          [⟨0, 100, 10⟩, ⟨3600, 101, 5⟩, ⟨7200, 102, 30⟩, ⟨10800, 103, 8⟩]
          none 10800 8).2 ∧
      (repairSumMonotonicity
          [⟨0, 100, 10⟩, ⟨3600, 101, 5⟩, ⟨7200, 102, 30⟩, ⟨10800, 103, 8⟩]
          none 10800 8).1.2.2.2 = true ∧
      ((0 : ℤ) ≤ 3600) ∧ ¬((10 : ℚ) ≤ 5) := by
  have h1 : highestSumStat
      [⟨0, 100, 10⟩, ⟨3600, 101, 5⟩, ⟨7200, 102, 30⟩, ⟨10800, 103, 8⟩] =
      some ⟨7200, 102, 30⟩ := by decide
  have hrep : repairSumMonotonicity
      [⟨0, 100, 10⟩, ⟨3600, 101, 5⟩, ⟨7200, 102, 30⟩, ⟨10800, 103, 8⟩]
      none 10800 8 =
      ((some 10800, some 102, some 30, true),
        (asyncWriteCarryForwardStats
          [⟨0, 100, 10⟩, ⟨3600, 101, 5⟩, ⟨7200, 102, 30⟩, ⟨10800, 103, 8⟩]
          7200 10800 102 30).1) := by
    simp only [repairSumMonotonicity, h1]
    rw [if_neg (by norm_num : ¬((30 : ℚ) ≤ 8 + 1 / 100))]
  have hwrite : (asyncWriteCarryForwardStats
      [⟨0, 100, 10⟩, ⟨3600, 101, 5⟩, ⟨7200, 102, 30⟩, ⟨10800, 103, 8⟩]
      7200 10800 102 30).1 =
      [⟨0, 100, 10⟩, ⟨3600, 101, 5⟩, ⟨7200, 102, 30⟩, ⟨10800, 102, 30⟩] := by
    decide
  rw [hrep]
  rw [hwrite]
  refine ⟨by simp, by simp, rfl, by decide, by decide⟩

end EyeOnWater
